import Mathlib

/-!
# Verification of the sigma-ts detection engine

A shallow embedding of the sigma-ts rule engine (`src/lib/date.ts`,
`src/lib/eval.ts`, `src/lib/types.ts`, `src/lib/errors.ts`,
`src/lib/utils.ts`) together with proofs about the embedded code.

The JavaScript `RegExp` engine and the `ip-address` npm package are external
capabilities of the program; they are modelled here by an executable regular
expression engine (Brzozowski derivatives) and by executable IPv4/IPv6
parsers, each restricted to the constructs the engine actually generates.
-/

namespace SigmaTS

/-! ## A regular-expression engine (model of the JavaScript `RegExp` capability)

`RE` is the abstract syntax of the regular expressions the engine builds.
`none` is the empty language (used for failing derivatives), `eps` the empty
string, `dot` any single character, `lit c` the single character `c`. -/

inductive RE : Type where
  | none : RE
  | eps : RE
  | lit (c : Char) : RE
  | dot : RE
  | seq (a b : RE) : RE
  | alt (a b : RE) : RE
  | star (a : RE) : RE
  deriving Repr, DecidableEq

/-- Does the regular expression accept the empty string? -/
def RE.nullable : RE → Bool
  | .none => false
  | .eps => true
  | .lit _ => false
  | .dot => false
  | .seq a b => a.nullable && b.nullable
  | .alt a b => a.nullable || b.nullable
  | .star _ => true

/-- Brzozowski derivative of a regular expression by a character. -/
def RE.deriv : RE → Char → RE
  | .none, _ => .none
  | .eps, _ => .none
  | .lit c, d => if c = d then .eps else .none
  | .dot, _ => .eps
  | .seq a b, c =>
      if a.nullable then .alt (.seq (a.deriv c) b) (b.deriv c)
      else .seq (a.deriv c) b
  | .alt a b, c => .alt (a.deriv c) (b.deriv c)
  | .star a, c => .seq (a.deriv c) (.star a)

/-- Full-match of a regular expression against a character list. -/
def RE.matchList : RE → List Char → Bool
  | r, [] => r.nullable
  | r, c :: s => (r.deriv c).matchList s

/-- Declarative semantics of `RE`: `Matches r s` holds when `r` accepts
exactly the string `s`. -/
inductive Matches : RE → List Char → Prop where
  | eps : Matches .eps []
  | lit (c : Char) : Matches (.lit c) [c]
  | dot (c : Char) : Matches .dot [c]
  | seq {a b : RE} {u v : List Char} :
      Matches a u → Matches b v → Matches (.seq a b) (u ++ v)
  | altL {a b : RE} {s : List Char} : Matches a s → Matches (.alt a b) s
  | altR {a b : RE} {s : List Char} : Matches b s → Matches (.alt a b) s
  | starNil {a : RE} : Matches (.star a) []
  | starCons {a : RE} {u v : List Char} :
      Matches a u → Matches (.star a) v → Matches (.star a) (u ++ v)

/-! ## Structural traversal helpers -/

/-- `mapM` over `Except` by structural recursion. -/
def exceptMapM {ε α β : Type} (f : α → Except ε β) : List α → Except ε (List β)
  | [] => .ok []
  | x :: rest => do pure ((← f x) :: (← exceptMapM f rest))

/-- `mapM` over `Option` by structural recursion. -/
def optionMapM {α β : Type} (f : α → Option β) : List α → Option (List β)
  | [] => some []
  | x :: rest => do pure ((← f x) :: (← optionMapM f rest))

/-! ## Parsing regex source strings

Modelled from the spec: the JavaScript `RegExp` constructor is an external
capability.  The model below parses the regex fragments the engine builds
(literals, escapes, `.`, postfix `*`/`+`/`?`, and alternation `|`) and maps
every construct outside this subset to an error, mirroring the fact that the
engine itself only generates this subset (user-supplied `re` patterns using
other constructs fall outside the model's boundary). -/

inductive ReTok : Type where
  | lit (c : Char)
  | dot
  | star
  | plus
  | opt
  | bar
  deriving Repr, DecidableEq

/-- Tokenize a regex source string; `\c` escapes to a literal. -/
def reToks : List Char → Except String (List ReTok)
  | [] => .ok []
  | c :: rest =>
      if c = '\\' then
        match rest with
        | [] => .error "pattern ends with a backslash"
        | d :: rest' => do pure (ReTok.lit d :: (← reToks rest'))
      else if c = '.' then do pure (ReTok.dot :: (← reToks rest))
      else if c = '*' then do pure (ReTok.star :: (← reToks rest))
      else if c = '+' then do pure (ReTok.plus :: (← reToks rest))
      else if c = '?' then do pure (ReTok.opt :: (← reToks rest))
      else if c = '|' then do pure (ReTok.bar :: (← reToks rest))
      else if c ∈ ['(', ')', '[', ']', '\x7b', '\x7d', '^', '$'] then
        .error "regex construct outside the modelled subset"
      else do pure (ReTok.lit c :: (← reToks rest))

/-- Split a token list into alternation branches at `|` tokens. -/
def splitBarAux : List ReTok → List ReTok → List (List ReTok)
  | [], acc => [acc.reverse]
  | .bar :: rest, acc => acc.reverse :: splitBarAux rest []
  | t :: rest, acc => splitBarAux rest (t :: acc)

/-- Parse one alternation branch: atoms with optional postfix quantifier.
A quantifier with no preceding atom is a syntax error (JS: "nothing to
repeat"), which is how `new RegExp` rejects strings like `(?:++)`. -/
def seqREs : List ReTok → Except String (List RE)
  | [] => .ok []
  | .lit c :: .star :: rest => do pure (RE.star (.lit c) :: (← seqREs rest))
  | .lit c :: .plus :: rest => do pure (RE.seq (.lit c) (.star (.lit c)) :: (← seqREs rest))
  | .lit c :: .opt :: rest => do pure (RE.alt .eps (.lit c) :: (← seqREs rest))
  | .lit c :: rest => do pure (RE.lit c :: (← seqREs rest))
  | .dot :: .star :: rest => do pure (RE.star .dot :: (← seqREs rest))
  | .dot :: .plus :: rest => do pure (RE.seq .dot (.star .dot) :: (← seqREs rest))
  | .dot :: .opt :: rest => do pure (RE.alt .eps .dot :: (← seqREs rest))
  | .dot :: rest => do pure (RE.dot :: (← seqREs rest))
  | .star :: _ => .error "nothing to repeat"
  | .plus :: _ => .error "nothing to repeat"
  | .opt :: _ => .error "nothing to repeat"
  | .bar :: _ => .error "unexpected alternation token"

def seqFold (rs : List RE) : RE := rs.foldr RE.seq .eps

def altFold : List RE → RE
  | [] => .none
  | [r] => r
  | r :: rest => .alt r (altFold rest)

/-- Parse a regex source string into an `RE` (model of `new RegExp`). -/
def jsRegexRE (cs : List Char) : Except String RE := do
  let toks ← reToks cs
  let branches := splitBarAux toks []
  let parsed ← exceptMapM (fun b => do pure (seqFold (← seqREs b))) branches
  pure (altFold parsed)

/-! ## Pattern transformations from `eval.ts` -/

/-- Model of `escapeRegex(pattern).replace(/\\\*/g, '.*').replace(/\\\?/g, '.')`:
every pattern character becomes a literal except `*` (any run of characters)
and `?` (any single character).  `escapeRegex` exists only to make regex
metacharacters literal, so the composite is this direct translation. -/
def globRE : List Char → RE
  | [] => .eps
  | c :: rest =>
      if c = '*' then .seq (.star .dot) (globRE rest)
      else if c = '?' then .seq .dot (globRE rest)
      else .seq (.lit c) (globRE rest)

/-- A sequence of literal characters (regex-escaped text). -/
def litSeq (cs : List Char) : RE := cs.foldr (fun c r => RE.seq (.lit c) r) .eps

/-- JS `\w` word characters `[A-Za-z0-9_]`. -/
def isWordChar (c : Char) : Bool :=
  ('a' ≤ c && c ≤ 'z') || ('A' ≤ c && c ≤ 'Z') || ('0' ≤ c && c ≤ '9') || c = '_'

/-- `input.replace(/\B[-\/]\b/, dash)`: replace the first `-` or `/` that is
not preceded by a word character and is followed by a word character. -/
def windashReplaceAux (dash : Char) (prev : Option Char) : List Char → List Char
  | [] => []
  | c :: rest =>
      if (c = '-' || c = '/')
          && (match prev with | Option.none => true | some p => !isWordChar p)
          && (match rest with | next :: _ => isWordChar next | [] => false) then
        dash :: rest
      else
        c :: windashReplaceAux dash (some c) rest

/-- Model of `windashPermute`: one variant per Windows parameter dash. -/
def windashPermute (input : List Char) : List (List Char) :=
  ['-', '/', '–', '—', '―'].map (fun dash => windashReplaceAux dash Option.none input)

/-- UTF-8 encoding of one character (model of `Buffer.from(string)`). -/
def utf8Bytes (c : Char) : List Nat :=
  let n := c.toNat
  if n < 0x80 then [n]
  else if n < 0x800 then [0xC0 ||| (n >>> 6), 0x80 ||| (n &&& 0x3F)]
  else if n < 0x10000 then
    [0xE0 ||| (n >>> 12), 0x80 ||| ((n >>> 6) &&& 0x3F), 0x80 ||| (n &&& 0x3F)]
  else
    [0xF0 ||| (n >>> 18), 0x80 ||| ((n >>> 12) &&& 0x3F),
     0x80 ||| ((n >>> 6) &&& 0x3F), 0x80 ||| (n &&& 0x3F)]

def strBytes (cs : List Char) : List Nat := (cs.map utf8Bytes).flatten

def b64Alphabet : List Char :=
  "ABCDEFGHIJKLMNOPQRSTUVWXYZabcdefghijklmnopqrstuvwxyz0123456789+/".toList

def b64Char (n : Nat) : Char := b64Alphabet.getD n 'A'

/-- Standard base64 with padding (model of `buffer.toString('base64')`). -/
def b64Encode : List Nat → List Char
  | [] => []
  | [b1] =>
      [b64Char (b1 >>> 2), b64Char ((b1 &&& 0x3) <<< 4), '=', '=']
  | [b1, b2] =>
      [b64Char (b1 >>> 2), b64Char (((b1 &&& 0x3) <<< 4) ||| (b2 >>> 4)),
       b64Char ((b2 &&& 0xF) <<< 2), '=']
  | b1 :: b2 :: b3 :: rest =>
      b64Char (b1 >>> 2) :: b64Char (((b1 &&& 0x3) <<< 4) ||| (b2 >>> 4)) ::
      b64Char (((b2 &&& 0xF) <<< 2) ||| (b3 >>> 6)) :: b64Char (b3 &&& 0x3F) ::
      b64Encode rest

/-- Model of `base64Permute`: the three byte-shifted encodings of the input,
with the slack introduced by the shift trimmed off. -/
def base64OffsetPermute (input : List Char) : List (List Char) :=
  if input.isEmpty then []
  else
    let bytes := strBytes input
    (List.range 3).map (fun i =>
      let shifted := List.replicate i 0x20 ++ bytes
      let encoded := b64Encode shifted
      let startOffset := [0, 2, 3].getD i 0
      let endCut := [0, 3, 2].getD ((bytes.length + i) % 3) 0
      (encoded.take (encoded.length - endCut)).drop startOffset)

/-! ## Kernel-reducible string helpers

Lean's own `String.toLower`/`String.startsWith` are compiled by well-founded
recursion, which the kernel cannot unfold; these structural equivalents model
the corresponding JavaScript string operations. -/

def lowerL (cs : List Char) : List Char := cs.map Char.toLower

/-- `s.toLowerCase()`. -/
def lowerStr (s : String) : String := String.mk (lowerL s.toList)

/-- `s.startsWith(pre)`. -/
def strStartsWith (s pre : String) : Bool := pre.toList.isPrefixOf s.toList

/-- `s.endsWith(suf)`. -/
def strEndsWith (s suf : String) : Bool := suf.toList.isSuffixOf s.toList

/-! ## The search atom (`SearchAtom` from `eval.ts`) -/

structure SearchAtom where
  field : Option String
  modifiers : List String
  patterns : List String
  deriving Repr, DecidableEq

structure LogEntry where
  message : String
  fields : List (String × String)
  deriving Repr, DecidableEq

structure MatchOptions where
  placeholders : List (String × List String) := []
  deriving Repr, DecidableEq

inductive PatternType : Type where
  | glob
  | re
  | cidr
  deriving Repr, DecidableEq

def exceptOk {ε α : Type} : Except ε α → Bool
  | .ok _ => true
  | .error _ => false

/-- The modifier-validation loop of `SearchAtom.validate`; `i` is the loop
index (used only for the expand-must-be-first check). -/
def validateMods (patterns : List String) :
    List String → Nat → PatternType → Bool → Except String (PatternType × Bool)
  | [], _, ty, ex => .ok (ty, ex)
  | m :: rest, i, ty, ex =>
      if m = "re" then validateMods patterns rest (i + 1) .re ex
      else if m = "cidr" then validateMods patterns rest (i + 1) .cidr ex
      else if m ∈ ["contains", "all", "startswith", "endswith", "windash",
                   "base64", "base64offset"] then
        validateMods patterns rest (i + 1) ty ex
      else if m = "expand" then
        if i ≠ 0 then .error "expand can only be the first modifier"
        else
          match patterns.find? (fun p => !(strStartsWith p "%" && strEndsWith p "%")) with
          | some p => .error ("placeholder \"" ++ p ++ "\" must start and end with percent")
          | Option.none => validateMods patterns rest (i + 1) ty true
      else .error ("unknown modifier \"" ++ m ++ "\"")

/-! ### The IP-address capability

Modelled from the spec: the `ip-address` npm package is an external
collaborator (spec §1, §6): "parse a string as IPv4 or IPv6 address/CIDR
network; test is address A contained in network N (same address family
only)".  An IPv4 text form never contains `:` and an IPv6 text form always
does, so the two parsers are disjoint by construction. -/

structure IPv4 where
  addr : Nat
  prefixLen : Nat
  deriving Repr, DecidableEq

structure IPv6 where
  addr : Nat
  prefixLen : Nat
  deriving Repr, DecidableEq

inductive IPNet : Type where
  | v4 (n : IPv4)
  | v6 (n : IPv6)
  deriving Repr, DecidableEq

def splitOnChar (sep : Char) : List Char → List (List Char)
  | [] => [[]]
  | c :: rest =>
      let r := splitOnChar sep rest
      if c = sep then [] :: r
      else
        match r with
        | h :: t => (c :: h) :: t
        | [] => [[c]]

def parseDecNat (cs : List Char) : Option Nat :=
  if cs.isEmpty || !cs.all Char.isDigit then Option.none
  else some (cs.foldl (fun acc c => 10 * acc + (c.toNat - 48)) 0)

def hexDigitVal (c : Char) : Option Nat :=
  let n := c.toNat
  if 48 ≤ n && n ≤ 57 then some (n - 48)
  else if 97 ≤ n && n ≤ 102 then some (n - 87)
  else if 65 ≤ n && n ≤ 70 then some (n - 55)
  else Option.none

def parseHexGroup (cs : List Char) : Option Nat :=
  if cs.isEmpty || cs.length > 4 then Option.none
  else
    cs.foldl (fun acc c =>
      match acc, hexDigitVal c with
      | some a, some v => some (a * 16 + v)
      | _, _ => Option.none) (some 0)

def parseIPv4Core (cs : List Char) (p : Nat) : Option IPv4 :=
  match optionMapM (fun part =>
      (parseDecNat part).bind (fun v => if v ≤ 255 then some v else Option.none)) (splitOnChar '.' cs) with
  | some [a, b, c, d] => some ⟨((a * 256 + b) * 256 + c) * 256 + d, p⟩
  | _ => Option.none

/-- Model of `new Address4(s)`: dotted quad with optional `/prefix`.
Anything containing `:` is rejected (it would be an IPv6 form). -/
def parseIPv4 (s : String) : Option IPv4 :=
  let cs := s.toList
  if cs.contains ':' then Option.none
  else
    match splitOnChar '/' cs with
    | [addr] => parseIPv4Core addr 32
    | [addr, pre] =>
        (parseDecNat pre).bind (fun p =>
          if p ≤ 32 then parseIPv4Core addr p else Option.none)
    | _ => Option.none

def ipv6FromGroups (gs : List Nat) (p : Nat) : IPv6 :=
  ⟨gs.foldl (fun acc g => acc * 0x10000 + g) 0, p⟩

def parseIPv6Core (cs : List Char) (p : Nat) : Option IPv6 :=
  let parts := splitOnChar ':' cs
  -- an empty part encodes a `::` compression; JS `ip-address` allows at
  -- most one compression
  let emptyCount := parts.countP List.isEmpty
  if emptyCount = 0 then
    match optionMapM parseHexGroup parts with
    | some gs => if gs.length = 8 then some (ipv6FromGroups gs p) else Option.none
    | Option.none => Option.none
  else
    -- split around the first `::`; "::" at the string edge produces two
    -- adjacent empty parts which both belong to the compression
    let idx := parts.findIdx List.isEmpty
    let left := (parts.take idx).filter (fun l => !l.isEmpty)
    let right := (parts.drop idx).filter (fun l => !l.isEmpty)
    if emptyCount > 3 then Option.none
    else if emptyCount = 3 && !(parts = [[], [], []]) then Option.none
    else
      match optionMapM parseHexGroup left, optionMapM parseHexGroup right with
      | some gl, some gr =>
          if gl.length + gr.length ≤ 7 then
            some (ipv6FromGroups (gl ++ List.replicate (8 - gl.length - gr.length) 0 ++ gr) p)
          else Option.none
      | _, _ => Option.none

/-- Model of `new Address6(s)`: colon-separated hex groups with at most one
`::` compression and an optional `/prefix`.  Anything without `:` is
rejected (it could not be an IPv6 form); embedded IPv4 notation is outside
the model. -/
def parseIPv6 (s : String) : Option IPv6 :=
  let cs := s.toList
  if !cs.contains ':' then Option.none
  else
    match splitOnChar '/' cs with
    | [addr] => parseIPv6Core addr 128
    | [addr, pre] =>
        (parseDecNat pre).bind (fun p =>
          if p ≤ 128 then
            (parseIPv6Core addr 128).map (fun a => { a with prefixLen := p })
          else Option.none)
    | _ => Option.none

/-- `try new Address4(p) … try new Address6(p)` in `_compile`. -/
def parseNet (s : String) : Option IPNet :=
  match parseIPv4 s with
  | some a => some (.v4 a)
  | Option.none =>
      match parseIPv6 s with
      | some a => some (.v6 a)
      | Option.none => Option.none

def inSubnet4 (a : IPv4) (n : IPv4) : Bool :=
  a.addr >>> (32 - n.prefixLen) = n.addr >>> (32 - n.prefixLen)

def inSubnet6 (a : IPv6) (n : IPv6) : Bool :=
  a.addr >>> (128 - n.prefixLen) = n.addr >>> (128 - n.prefixLen)

/-! ### Validation (direct translation of `SearchAtom.validate`) -/

def SearchAtom.validate (a : SearchAtom) : Option String :=
  if a.patterns.length = 0 then some "no patterns"
  else
    match validateMods a.patterns a.modifiers 0 .glob false with
    | .error e => some e
    | .ok (ty, expand) =>
        if expand then Option.none
        else
          match ty with
          | .re =>
              match a.patterns.find? (fun p => !exceptOk (jsRegexRE p.toList)) with
              | some p => some ("pattern " ++ p ++ ": invalid regular expression")
              | Option.none => Option.none
          | .cidr =>
              match a.patterns.find? (fun p => (parseNet p).isNone) with
              | some p => some ("pattern " ++ p ++ ": not a valid CIDR")
              | Option.none => Option.none
          | .glob => Option.none

/-! ### Compilation (direct translation of `SearchAtom._compile`)

The `_compiledCache` memoisation cell is derived, not semantic, state
(spec §3) and is modelled by pure recomputation. -/

/-- JS truthiness of the `field` member: `!this.field` is true both for an
absent field and for the empty-string field. -/
def fieldFalsy : Option String → Bool
  | Option.none => true
  | some s => s = ""

/-- One compiled fragment per pattern; each fragment carries its own
`.*` pads, which is the search semantics of an unanchored JS regex. -/
def processPattern (mods : List String) (field : Option String) (pattern : String) :
    Except String RE :=
  if mods.contains "re" then do
    -- `(?:pattern)`, used verbatim, never anchored
    let r ← jsRegexRE (lowerL pattern.toList)
    pure (.seq (.star .dot) (.seq r (.star .dot)))
  else if mods.contains "base64offset" then do
    -- `(?:v1|v2|v3)` over the raw (unescaped!) base64 variants, never
    -- anchored; in the base64 alphabet `+` acts as a regex quantifier
    let rs ← exceptMapM (fun v => jsRegexRE (lowerL v)) (base64OffsetPermute pattern.toList)
    pure (.seq (.star .dot) (.seq (altFold rs) (.star .dot)))
  else
    let p := if mods.contains "base64" then b64Encode (strBytes pattern.toList)
             else pattern.toList
    let body :=
      if mods.contains "windash" then
        altFold ((windashPermute p).map (fun v => litSeq (lowerL v)))
      else globRE (lowerL p)
    let contains := mods.contains "contains"
    let anchorStart := !(fieldFalsy field || contains || mods.contains "endswith")
    let anchorEnd := !(fieldFalsy field || contains || mods.contains "startswith")
    let body := if anchorStart then body else .seq (.star .dot) body
    let body := if anchorEnd then body else .seq body (.star .dot)
    .ok body

inductive Compiled : Type where
  | cidr (nets : List IPNet)
  | regex (allMode : Bool) (frags : List RE)
  deriving Repr, DecidableEq

def compileAtom (a : SearchAtom) (patterns : List String) : Except String Compiled :=
  if a.modifiers.contains "cidr" then
    .ok (.cidr (patterns.filterMap parseNet))
  else do
    let frags ← exceptMapM (processPattern a.modifiers a.field) patterns
    pure (.regex (a.modifiers.contains "all") frags)

/-- Run a compiled matcher on one string (the `matches` closures).  The `i`
flag of the non-CIDR regexes is modelled by lowercasing both sides. -/
def Compiled.test : Compiled → String → Bool
  | .cidr nets, s =>
      match parseIPv4 s with
      | some a => nets.any (fun n => match n with
          | .v4 net => inSubnet4 a net
          | .v6 _ => false)
      | Option.none =>
          match parseIPv6 s with
          | some a => nets.any (fun n => match n with
              | .v6 net => inSubnet6 a net
              | .v4 _ => false)
          | Option.none => false
  | .regex allMode frags, s =>
      let cs := lowerL s.toList
      if allMode then frags.all (fun r => r.matchList cs)
      else frags.any (fun r => r.matchList cs)

/-! ### Matching (direct translation of `SearchAtom.exprMatches`) -/

/-- JS `s.substring(a, b)` (clamps and swaps its arguments). -/
def jsSubstring (s : String) (a b : Nat) : String :=
  String.mk (((s.toList).take (max a b)).drop (min a b))

def expandPatterns (a : SearchAtom) (placeholders : List (String × List String)) :
    List String :=
  if a.modifiers.contains "expand" then
    (a.patterns.map (fun ph =>
      let name := jsSubstring ph 1 (ph.length - 1)
      match placeholders.find? (fun kv => kv.1 = name) with
      | some kv => kv.2
      | Option.none => [])).flatten
  else a.patterns

def fieldContent (a : SearchAtom) (entry : LogEntry) : String :=
  if fieldFalsy a.field then entry.message
  else
    let lf := lowerStr (a.field.getD "")
    match entry.fields.find? (fun kv => lowerStr kv.1 = lf) with
    | some kv => kv.2
    | Option.none => ""

/-- `SearchAtom.exprMatches`.  The result is `Except`-valued: `.error`
models a JavaScript exception escaping the call (the only source is the
`RegExp` constructor inside `_compile`). -/
def SearchAtom.exprMatches (a : SearchAtom) (entry : LogEntry) (opts : MatchOptions) :
    Except String Bool :=
  if (a.validate).isSome then .ok false
  else
    let content := fieldContent a entry
    let pats := expandPatterns a opts.placeholders
    if pats.isEmpty then .ok false
    else do
      let c ← compileAtom a pats
      pure (c.test content)

/-! ## The expression tree (`types.ts` / `eval.ts`) -/

inductive Expr : Type where
  | named (name : String) (x : Expr)
  | not (x : Expr)
  | and (xs : List Expr)
  | or (xs : List Expr)
  | atom (a : SearchAtom)
  deriving Repr

mutual

/-- `exprMatches` over the tree; `.error` models a thrown JS exception
propagating out of the evaluation. -/
def Expr.eval : Expr → LogEntry → MatchOptions → Except String Bool
  | .named _ x, e, o => x.eval e o
  | .not x, e, o => do pure (!(← x.eval e o))
  | .and xs, e, o => evalAnd xs e o
  | .or xs, e, o => evalOr xs e o
  | .atom a, e, o => a.exprMatches e o

/-- `AndExpr.exprMatches`: short-circuits on the first non-match. -/
def evalAnd : List Expr → LogEntry → MatchOptions → Except String Bool
  | [], _, _ => .ok true
  | x :: rest, e, o => do
      let b ← x.eval e o
      if b then evalAnd rest e o else pure false

/-- `OrExpr.exprMatches`: short-circuits on the first match. -/
def evalOr : List Expr → LogEntry → MatchOptions → Except String Bool
  | [], _, _ => .ok false
  | x :: rest, e, o => do
      let b ← x.eval e o
      if b then pure true else evalOr rest e o

end

/-! ## Errors (`errors.ts`)

`sigma` models `SigmaError`, `aggregationNotSupported` the distinct
`SigmaAggregationNotSupportedError` subclass, and `jsError` any other
JavaScript exception escaping (TypeError, RegExp SyntaxError, …). -/

inductive SpecError : Type where
  | sigma (msg : String)
  | aggregationNotSupported
  | jsError (msg : String)
  deriving Repr, DecidableEq

/-! ## The YAML data model

Generic YAML deserialization is an external collaborator (spec §1); the
engine consumes an already-decoded tree of mappings, sequences and scalars.
Numbers are modelled as integers. -/

inductive Yaml : Type where
  | str (s : String)
  | num (n : Int)
  | bool (b : Bool)
  | null
  | seq (xs : List Yaml)
  | map (kvs : List (String × Yaml))

/-- JS truthiness of a decoded YAML value. -/
def Yaml.truthy : Yaml → Bool
  | .str s => s ≠ ""
  | .num n => n ≠ 0
  | .bool b => b
  | .null => false
  | .seq _ => true
  | .map _ => true

/-- Property access `value[key]` on a decoded YAML value. -/
def yamlGet : Yaml → String → Option Yaml
  | .map kvs, k => (kvs.find? (fun kv => kv.1 = k)).map Prod.snd
  | _, _ => Option.none

/-- `listOfStrings` from `utils.ts`. -/
def listOfStrings : Option Yaml → List String
  | Option.none => []
  | some .null => []
  | some (.str s) => [s]
  | some (.seq xs) =>
      if xs.all (fun x => match x with | .str _ => true | _ => false) then
        xs.filterMap (fun x => match x with | .str s => some s | _ => Option.none)
      else []
  | some _ => []

/-! ## The condition parser (`ConditionParser` from `date.ts`) -/

def condDelims : List Char := ['(', ')', '|']

def isSpaceChar (c : Char) : Bool := c.isWhitespace

/-- `ConditionParser.lex`: skip leading whitespace, then one delimiter
character or a maximal run of non-delimiter non-space characters. -/
def condLex (s : List Char) : String × List Char :=
  let s := s.dropWhile isSpaceChar
  match s with
  | [] => ("", [])
  | c :: rest =>
      if c ∈ condDelims then (String.mk [c], rest)
      else
        let tok := s.takeWhile (fun d => !(d ∈ condDelims || isSpaceChar d))
        (String.mk tok, s.drop tok.length)

/-- `pattern.replace(/\*/g, '.*')` in the quantifier branch. -/
def quantSubst : List Char → List Char
  | [] => []
  | c :: rest =>
      if c = '*' then '.' :: '*' :: quantSubst rest
      else c :: quantSubst rest

/-- The zero/one/many dispatch at the end of the quantifier branch. -/
def quantFinish (tok pattern : String) : List Expr → Except SpecError Expr
  | [] => .error (.sigma (tok ++ " of " ++ pattern ++ " did not match any identifiers"))
  | [x] => .ok x
  | xs => if tok = "1" then .ok (.or xs) else .ok (.and xs)

/-- The quantifier branch of `ConditionParser.unary`: `them` selects every
identifier, otherwise `new RegExp('^' + pattern.replace(/\*／g,'.*') + '$')`
is matched (case-sensitively, fully anchored) against identifier names. -/
def quantResolve (tok pattern : String) (identifiers : List (String × Expr)) :
    Except SpecError Expr :=
  if pattern = "them" then
    quantFinish tok pattern (identifiers.map Prod.snd)
  else
    match jsRegexRE (quantSubst pattern.toList) with
    | .error e => .error (.jsError e)
    | .ok re =>
        quantFinish tok pattern
          ((identifiers.filter (fun nx => re.matchList nx.1.toList)).map Prod.snd)

def operatorPrecedence (tok : String) : Int :=
  if tok = "and" then 1 else if tok = "or" then 0 else -1

mutual

/-- `ConditionParser.expr`. -/
def pExpr (fuel : Nat) (tbl : List (String × Expr)) (s : List Char) :
    Except SpecError (Expr × List Char) :=
  match fuel with
  | 0 => .error (.sigma "condition parser ran out of fuel")
  | fuel + 1 => do
      let (x, s') ← pUnary fuel tbl s
      pBinaryTrail fuel tbl x 0 s'

/-- `ConditionParser.unary`. -/
def pUnary (fuel : Nat) (tbl : List (String × Expr)) (s : List Char) :
    Except SpecError (Expr × List Char) :=
  match fuel with
  | 0 => .error (.sigma "condition parser ran out of fuel")
  | fuel + 1 =>
      let (tok, s') := condLex s
      if tok = "" then .error (.sigma "unexpected end of condition")
      else if tok = "(" then do
        let (x, s2) ← pExpr fuel tbl s'
        let (closing, s3) := condLex s2
        if closing = ")" then pure (x, s3)
        else .error (.sigma "missing closing parenthesis")
      else if tok = "not" then do
        let (x, s2) ← pUnary fuel tbl s'
        pure (Expr.not x, s2)
      else if tok = "1" || tok = "all" then
        let (ofTok, s2) := condLex s'
        if ofTok ≠ "of" then .error (.sigma ("expected \"of\" after \"" ++ tok ++ "\""))
        else
          let (pattern, s3) := condLex s2
          if pattern = "" then
            .error (.sigma ("expected word after \"" ++ tok ++ " of\""))
          else do
            let x ← quantResolve tok pattern tbl
            pure (x, s3)
      else
        match tbl.find? (fun nx => nx.1 = tok) with
        | some nx => pure (nx.2, s')
        | Option.none => .error (.sigma ("unknown search identifier " ++ tok))

/-- The outer loop of `ConditionParser.binaryTrail`; returning with the
saved input models the `this.s = originalS` un-lex. -/
def pBinaryTrail (fuel : Nat) (tbl : List (String × Expr)) (x : Expr) (minPrec : Int)
    (s : List Char) : Except SpecError (Expr × List Char) :=
  match fuel with
  | 0 => .error (.sigma "condition parser ran out of fuel")
  | fuel + 1 =>
      let (op, s') := condLex s
      if op = "" then pure (x, s')
      else if op = "|" then .error .aggregationNotSupported
      else if operatorPrecedence op < minPrec then pure (x, s)
      else do
        let (y0, s2) ← pUnary fuel tbl s'
        let (y, s3) ← pInner fuel tbl y0 (operatorPrecedence op) s2
        let x' :=
          if op = "and" then
            match x with
            | .and xs => Expr.and (xs ++ [y])
            | _ => Expr.and [x, y]
          else if op = "or" then
            match x with
            | .or xs => Expr.or (xs ++ [y])
            | _ => Expr.or [x, y]
          else x
        pBinaryTrail fuel tbl x' minPrec s3

/-- The inner peeking loop of `ConditionParser.binaryTrail`. -/
def pInner (fuel : Nat) (tbl : List (String × Expr)) (y : Expr) (prec : Int)
    (s : List Char) : Except SpecError (Expr × List Char) :=
  match fuel with
  | 0 => .error (.sigma "condition parser ran out of fuel")
  | fuel + 1 =>
      let (nextOp, _) := condLex s
      if nextOp = "" then pure (y, s)
      else if operatorPrecedence nextOp ≤ prec then pure (y, s)
      else do
        let (y', s') ← pBinaryTrail fuel tbl y (prec + 1) s
        pInner fuel tbl y' prec s'

end

/-- `parseCondition` / `ConditionParser.parse`. -/
def parseCondition (condition : String) (identifiers : List (String × Expr)) :
    Except SpecError Expr := do
  let (x, s) ← pExpr (condition.length + 2) identifiers condition.toList
  let (tok, _) := condLex s
  if tok = "" then pure x
  else .error (.sigma ("condition: unexpected \"" ++ tok ++ "\""))

/-! ## The detection builder (`parseDetection` / `parseSearchMap`) -/

/-- Split a search-map key `field|mod1|mod2…`. -/
def splitPipe (key : String) : String × List String :=
  match splitOnChar '|' key.toList with
  | [] => ("", [])
  | f :: ms => (String.mk f, ms.map String.mk)

/-- `String(value)` for a YAML scalar, `none` for non-scalars. -/
def yamlScalarString : Yaml → Option String
  | .str s => some s
  | .num n => some (toString n)
  | .bool b => some (if b then "true" else "false")
  | _ => Option.none

/-- `parseSearchMap`: one validated `SearchAtom` per key, combined with
`And`; a single atom is returned unwrapped. -/
def parseSearchMap (node : List (String × Yaml)) : Except SpecError Expr := do
  let atoms ← exceptMapM (fun kv => do
    let (field, modifiers) := splitPipe kv.1
    let patterns ←
      match kv.2 with
      | .str v => pure [v]
      | .num n => pure [toString n]
      | .bool b => pure [if b then "true" else "false"]
      | .seq xs =>
          match optionMapM yamlScalarString xs with
          | some ps => pure ps
          | Option.none => Except.error (SpecError.sigma (kv.1 ++ ": unsupported value"))
      | _ => Except.error (SpecError.sigma (kv.1 ++ ": unsupported value"))
    let atom : SearchAtom := ⟨some field, modifiers, patterns⟩
    match atom.validate with
    | some e => Except.error (SpecError.sigma (kv.1 ++ ": " ++ e))
    | Option.none => pure (Expr.atom atom)) node
  match atoms with
  | [] => .error (.sigma "empty map")
  | [a] => pure a
  | more => pure (.and more)

/-- `e instanceof SearchAtom && !e.field && e.modifiers.length === 0`. -/
def isPlainAtom : Expr → Bool
  | .atom a => fieldFalsy a.field && a.modifiers.isEmpty
  | _ => false

def exprAtomPatterns : Expr → List String
  | .atom a => a.patterns
  | _ => []

/-- The callback of `value.map(elem => …)` for a YAML-list search value:
strings become fieldless atoms, nested maps go through `parseSearchMap`,
anything else is rejected. -/
def parseListElem (id : String) : Yaml → Except SpecError Expr
  | .str s => pure (Expr.atom ⟨Option.none, [], [s]⟩)
  | .map kvs => parseSearchMap kvs
  | _ => Except.error (SpecError.sigma
      ("search identifier \"" ++ id ++ "\": unsupported list value"))

/-- The per-identifier resolution (the body of the `for (const id of
idKeys)` loop in `parseDetection`). -/
def parseIdentValue (id : String) (value : Yaml) : Except SpecError Expr :=
  match value with
  | .seq elems => do
      let exprs ← exceptMapM (parseListElem id) elems
      match exprs with
      | [e] => pure e
      | es =>
          if es.all isPlainAtom then
            pure (.atom ⟨Option.none, [], (es.map exprAtomPatterns).flatten⟩)
          else pure (.or es)
  | .map kvs => parseSearchMap kvs
  | .str s => pure (.atom ⟨Option.none, [], [s]⟩)
  | _ => .error (.sigma ("search identifier \"" ++ id ++ "\": unsupported value"))

structure Detection where
  expr : Expr

/-- `parseDetection`. -/
def parseDetection (block : Option Yaml) : Except SpecError Detection :=
  match block with
  | Option.none => .error (.sigma "missing detection")
  | some b =>
      if !b.truthy then .error (.sigma "missing detection")
      else
        let conditions := listOfStrings (yamlGet b "condition")
        if conditions.isEmpty then .error (.sigma "missing detection condition")
        else if (yamlGet b "timeframe").elim false Yaml.truthy then
          .error .aggregationNotSupported
        else do
          let keys := match b with | .map kvs => kvs.map Prod.fst | _ => []
          let idKeys := (keys.filter (fun k => k ≠ "condition" && k ≠ "timeframe")).insertionSort (· ≤ ·)
          let identifiers ← exceptMapM (fun id => do
            let result ← parseIdentValue id ((yamlGet b id).getD .null)
            pure (id, Expr.named id result)) idKeys
          let parsed ← exceptMapM (fun cond => parseCondition cond identifiers) conditions
          match parsed with
          | [e] => pure ⟨e⟩
          | es => pure ⟨.or es⟩

/-! ## Rule metadata and `parseRule` -/

/-- Modelled from the spec: calendar date parsing is an external collaborator
(spec §1, §6): "YYYY/MM/DD" or "YYYY-MM-DD", rejecting 2-digit years, month
outside 1–12 and day outside 1–31; values are validated but not
calendar-normalized. -/
structure SigmaDate where
  year : Int
  month : Int
  day : Int
  deriving Repr, DecidableEq

/-- JS `parseInt(s, 10)`: optional sign, maximal digit prefix, `none` = NaN. -/
def jsParseInt (s : String) : Option Int :=
  let cs := s.toList.dropWhile isSpaceChar
  let core : List Char → Option Nat := fun l =>
    let ds := l.takeWhile Char.isDigit
    if ds.isEmpty then Option.none
    else some (ds.foldl (fun acc c => 10 * acc + (c.toNat - 48)) 0)
  match cs with
  | '-' :: rest => (core rest).map (fun n => -(n : Int))
  | '+' :: rest => (core rest).map (fun n => (n : Int))
  | rest => (core rest).map (fun n => (n : Int))

def sigmaDateParse (s : String) : Except String SigmaDate :=
  let parts := (s.toList.splitOnP (fun c => c = '/' || c = '-')).map String.mk
  if parts.length ≠ 3 then .error ("parse sigma date " ++ s ++ ": unknown format")
  else
    match jsParseInt (parts.getD 0 ""), jsParseInt (parts.getD 1 ""),
        jsParseInt (parts.getD 2 "") with
    | some y, some m, some d =>
        if y < 100 then .error ("parse sigma date " ++ s ++ ": short years not allowed")
        else if m < 1 || m > 12 then
          .error ("parse sigma date " ++ s ++ ": invalid month")
        else if d < 1 || d > 31 then
          .error ("parse sigma date " ++ s ++ ": invalid day")
        else .ok ⟨y, m, d⟩
    | _, _, _ => .error ("parse sigma date " ++ s ++ ": invalid date component")

structure Rule where
  title : Yaml
  id : Option Yaml
  related : Option (List (Yaml × Yaml))
  status : Option Yaml
  description : Option Yaml
  references : Option Yaml
  author : Option Yaml
  date : Option SigmaDate
  modified : Option SigmaDate
  tags : Option Yaml
  level : Option Yaml
  logsource : Option Yaml
  detection : Detection
  fields : Option Yaml
  falsepositives : List String
  extra : List (String × Yaml)

def knownTopLevelKeys : List String :=
  ["title", "id", "related", "status", "description", "references",
   "author", "date", "modified", "tags", "level", "logsource",
   "detection", "fields", "falsepositives"]

/-- The `related` loop of `parseRule`: falsy entries are skipped; a missing
`id` or `type` aborts; a truthy non-array value leaves the loop body
unentered. -/
def parseRelated (title : String) (v : Option Yaml) :
    Except SpecError (Option (List (Yaml × Yaml))) :=
  match v with
  | Option.none => pure Option.none
  | some y =>
      if !y.truthy then pure Option.none
      else
        match y with
        | .seq xs => do
            let entries ← exceptMapM (fun rel =>
              if !rel.truthy then pure []
              else
                let relId := (yamlGet rel "id").getD .null
                let relTy := (yamlGet rel "type").getD .null
                if !relId.truthy then
                  Except.error (SpecError.sigma
                    ("parse sigma rule \"" ++ title ++ "\": related: missing id"))
                else if !relTy.truthy then
                  Except.error (SpecError.sigma
                    ("parse sigma rule \"" ++ title ++ "\": related: missing type"))
                else pure [(relId, relTy)]) xs
            pure (some entries.flatten)
        | _ => pure (some [])

def parseDateField (v : Option Yaml) : Except SpecError (Option SigmaDate) :=
  match v with
  | Option.none => pure Option.none
  | some y =>
      if !y.truthy then pure Option.none
      else
        match y with
        | .str s =>
            match sigmaDateParse s with
            | .ok d => pure (some d)
            | .error e => .error (.jsError e)
        | _ => .error (.jsError "TypeError: value has no split method")

/-- `parseRule`, applied to the already-deserialized YAML document. -/
def parseRule (doc : Yaml) : Except SpecError Rule :=
  match doc with
  | .null => .error (.jsError "TypeError: cannot read properties of null")
  | _ =>
      if !((yamlGet doc "title").elim false Yaml.truthy) then
        .error (.sigma "parse sigma rule: missing title")
      else do
        let title := (yamlGet doc "title").getD .null
        let titleStr := match title with | .str s => s | _ => ""
        let detection ← parseDetection (yamlGet doc "detection")
        let related ← parseRelated titleStr (yamlGet doc "related")
        let date ← parseDateField (yamlGet doc "date")
        let modified ← parseDateField (yamlGet doc "modified")
        let extra :=
          match doc with
          | .map kvs => kvs.filter (fun kv => kv.1 ∉ knownTopLevelKeys)
          | _ => []
        pure {
          title := title
          id := yamlGet doc "id"
          related := related
          status := yamlGet doc "status"
          description := yamlGet doc "description"
          references := yamlGet doc "references"
          author := yamlGet doc "author"
          date := date
          modified := modified
          tags := yamlGet doc "tags"
          level := yamlGet doc "level"
          logsource := yamlGet doc "logsource"
          detection := detection
          fields := yamlGet doc "fields"
          falsepositives := listOfStrings (yamlGet doc "falsepositives")
          extra := extra }

/-- The compiled fragment of a pattern in a fieldless unmodified atom:
glob body padded on both sides (substring semantics on the message). -/
def plainFrag (p : String) : RE :=
  .seq (.seq (.star .dot) (globRE (lowerL p.toList))) (.star .dot)

/-- Characters with no special meaning in the quantifier regex construction
(neither glob `*` nor a JS regex metacharacter). -/
def quantSafeChar (c : Char) : Bool :=
  !(c ∈ ['.', '^', '$', '+', '?', '(', ')', '[', ']', '\x7b', '\x7d', '|', '\\'])

/-- The intended glob reading of a quantifier pattern: `*` is any run of
characters, every other character is literal. -/
def quantElems (p : List Char) : List RE :=
  p.map (fun c => if c = '*' then RE.star .dot else .lit c)

def quantGlobRE (p : List Char) : RE := seqFold (quantElems p)

def quantToks (p : List Char) : List ReTok :=
  (p.map (fun c => if c = '*' then [ReTok.dot, ReTok.star] else [ReTok.lit c])).flatten

theorem Matches.seq_inv {a b : RE} {s : List Char} (h : Matches (.seq a b) s) :
    ∃ u v, s = u ++ v ∧ Matches a u ∧ Matches b v := by
  cases h with
  | seq hu hv => exact ⟨_, _, rfl, hu, hv⟩

theorem nullable_iff_matches_nil (r : RE) : r.nullable = true ↔ Matches r [] := by
  induction r with
  | none => simp [RE.nullable]; intro h; cases h
  | eps => simp [RE.nullable]; exact .eps
  | lit c => simp [RE.nullable]; intro h; cases h
  | dot => simp [RE.nullable]; intro h; cases h
  | seq a b iha ihb =>
      simp only [RE.nullable, Bool.and_eq_true, iha, ihb]
      constructor
      · rintro ⟨ha, hb⟩
        exact (List.nil_append [] ▸ Matches.seq ha hb)
      · intro h
        rcases h.seq_inv with ⟨u, v, huv, hu, hv⟩
        rcases List.append_eq_nil.mp huv.symm with ⟨hu0, hv0⟩
        subst hu0; subst hv0
        exact ⟨hu, hv⟩
  | alt a b iha ihb =>
      simp only [RE.nullable, Bool.or_eq_true, iha, ihb]
      constructor
      · rintro (h | h)
        · exact .altL h
        · exact .altR h
      · intro h
        cases h with
        | altL h => exact Or.inl h
        | altR h => exact Or.inr h
  | star a ih =>
      simp [RE.nullable]
      exact .starNil

theorem deriv_sound {r : RE} {c : Char} {s : List Char}
    (h : Matches (r.deriv c) s) : Matches r (c :: s) := by
  induction r generalizing s with
  | none => cases h
  | eps => cases h
  | lit d =>
      simp only [RE.deriv] at h
      split at h
      · rename_i hdc
        cases h
        subst hdc
        exact .lit _
      · cases h
  | dot =>
      simp only [RE.deriv] at h
      cases h
      exact .dot c
  | seq a b iha ihb =>
      simp only [RE.deriv] at h
      by_cases hn : a.nullable
      · simp only [hn, if_true] at h
        cases h with
        | altL h =>
            cases h with
            | seq hu hv =>
                rename_i u v
                exact (List.cons_append c u v ▸ Matches.seq (iha hu) hv)
        | altR h =>
            have ha : Matches a [] := (nullable_iff_matches_nil a).mp hn
            exact (List.nil_append (c :: s) ▸ Matches.seq ha (ihb h))
      · simp only [hn, if_false] at h
        cases h with
        | seq hu hv =>
            rename_i u v
            exact (List.cons_append c u v ▸ Matches.seq (iha hu) hv)
  | alt a b iha ihb =>
      simp only [RE.deriv] at h
      cases h with
      | altL h => exact .altL (iha h)
      | altR h => exact .altR (ihb h)
  | star a ih =>
      simp only [RE.deriv] at h
      cases h with
      | seq hu hv =>
          rename_i u v
          exact (List.cons_append c u v ▸ Matches.starCons (ih hu) hv)

theorem deriv_complete {r : RE} {c : Char} {s : List Char}
    (h : Matches r (c :: s)) : Matches (r.deriv c) s := by
  generalize hcs : c :: s = t at h
  induction h generalizing c s with
  | eps => cases hcs
  | lit d =>
      cases hcs
      simp [RE.deriv]
      exact .eps
  | dot d =>
      cases hcs
      simp [RE.deriv]
      exact .eps
  | seq hu hv ihu ihv =>
      rename_i a b u v
      cases u with
      | nil =>
          simp only [List.nil_append] at hcs
          have hn : a.nullable = true := (nullable_iff_matches_nil a).mpr hu
          simp only [RE.deriv, hn, if_true]
          exact .altR (ihv hcs)
      | cons u0 u' =>
          simp only [List.cons_append] at hcs
          cases hcs
          have h1 : Matches (a.deriv c) u' := ihu rfl
          by_cases hn : a.nullable
          · simp only [RE.deriv, hn, if_true]
            exact .altL (.seq h1 hv)
          · simp only [RE.deriv, hn, Bool.false_eq_true, if_false]
            exact .seq h1 hv
  | altL h ih =>
      simp only [RE.deriv]
      exact .altL (ih hcs)
  | altR h ih =>
      simp only [RE.deriv]
      exact .altR (ih hcs)
  | starNil => cases hcs
  | starCons hu hv ihu ihv =>
      rename_i a u v
      cases u with
      | nil =>
          simp only [List.nil_append] at hcs
          exact ihv hcs
      | cons u0 u' =>
          simp only [List.cons_append] at hcs
          cases hcs
          simp only [RE.deriv]
          exact .seq (ihu rfl) hv

theorem matchList_iff_Matches (r : RE) (s : List Char) :
    r.matchList s = true ↔ Matches r s := by
  induction s generalizing r with
  | nil => exact nullable_iff_matches_nil r
  | cons c s ih =>
      simp only [RE.matchList]
      rw [ih]
      exact ⟨deriv_sound, deriv_complete⟩

/-- `star dot` (the regex `.*`) accepts every string. -/
theorem starDot_matches (s : List Char) : Matches (.star .dot) s := by
  induction s with
  | nil => exact .starNil
  | cons c s ih =>
      have : Matches (RE.star RE.dot) ([c] ++ s) := .starCons (.dot c) ih
      simpa using this

/-- A regex preceded by `.*` finds a match ending at the end of the input:
this is the semantics of an unanchored start. -/
theorem padLeft_iff (r : RE) (s : List Char) :
    Matches (.seq (.star .dot) r) s ↔ ∃ u v, s = u ++ v ∧ Matches r v := by
  constructor
  · intro h
    cases h with
    | seq hu hv =>
        rename_i u v
        exact ⟨u, v, rfl, hv⟩
  · rintro ⟨u, v, rfl, hv⟩
    exact .seq (starDot_matches u) hv

/-- A regex followed by `.*` finds a match starting at the start of the
input: this is the semantics of an unanchored end. -/
theorem padRight_iff (r : RE) (s : List Char) :
    Matches (.seq r (.star .dot)) s ↔ ∃ u v, s = u ++ v ∧ Matches r u := by
  constructor
  · intro h
    cases h with
    | seq hu hv =>
        rename_i u v
        exact ⟨u, v, rfl, hu⟩
  · rintro ⟨u, v, rfl, hu⟩
    exact .seq hu (starDot_matches v)

/-! ## Shared lemmas for the claim theorems -/

theorem exceptMapM_ok {ε α β : Type} (f : α → Except ε β) (g : α → β) (l : List α)
    (h : ∀ x ∈ l, f x = .ok (g x)) : exceptMapM f l = .ok (l.map g) := by
  induction l with
  | nil => rfl
  | cons x rest ih =>
      simp only [exceptMapM, h x (List.mem_cons_self x rest), List.map_cons]
      rw [ih (fun y hy => h y (List.mem_cons_of_mem x hy))]
      rfl

theorem flatten_singletons (ss : List String) :
    (ss.map (fun s => [s])).flatten = ss := by
  induction ss with
  | nil => rfl
  | cons s rest ih => simp [ih]

theorem except_bind_ok {ε α β : Type} (v : α) (f : α → Except ε β) :
    ((Except.ok v : Except ε α) >>= f) = f v := rfl

theorem mapM_parseListElem (id : String) (ss : List String) :
    exceptMapM (parseListElem id) (ss.map Yaml.str)
      = .ok (ss.map (fun t => Expr.atom ⟨Option.none, [], [t]⟩)) := by
  induction ss with
  | nil => rfl
  | cons t rest ih =>
      simp only [List.map_cons, exceptMapM, parseListElem, ih]
      rfl

/-! ## The claims -/

/-- C1 (code bug): the spec requires that matching never throws once a rule
has parsed, but an atom with modifiers `expand|re` passes `validate` (the
eager regex check is skipped when `expand` defers pattern content to match
time), and a caller-supplied placeholder value that is not a valid regular
expression then makes the `RegExp` constructor throw inside `_compile`
during `exprMatches`.  At the failing input, the detection block parses
successfully, the atom re-validates to no-error, and evaluation raises
(modelled by `Except.error`) instead of returning `false`. -/
theorem C1_match_time_throw :
    SearchAtom.validate ⟨some "f", ["expand", "re"], ["%p%"]⟩ = Option.none ∧
    (parseDetection (some (.map [("sel", .map [("f|expand|re", .str "%p%")]),
        ("condition", .str "sel")]))).toOption.map
        (fun d => d.expr.eval ⟨"", []⟩ ⟨[("p", ["("])]⟩)
      = some (.error "regex construct outside the modelled subset") :=
  ⟨rfl, rfl⟩

/-- C2 (counterexample): the claim says a `timeframe` key *anywhere*, with
*whatever* value, makes `parseRule` fail with the aggregation error.  But
the check is `if (block['timeframe'])` — JS truthiness — so a falsy value
such as `0` is silently ignored and the rule parses; and with no condition
present the missing-condition error fires first. -/
theorem C2_counterexample :
    exceptOk (parseRule (.map [("title", .str "t"),
      ("detection", .map [("condition", .str "a"), ("a", .str "x"),
        ("timeframe", .num 0)])])) = true ∧
    parseRule (.map [("title", .str "t"), ("detection", .map [("timeframe", .str "5m")])])
      = .error (.sigma "missing detection condition") :=
  ⟨rfl, rfl⟩

/-- C2 (amended): for every document whose title is truthy and whose
detection block yields at least one condition string and contains a
`timeframe` key with a *truthy* value, `parseRule` fails with the distinct
unsupported-aggregation error.  (Falsy `timeframe` values are ignored, and
a missing condition is reported before the timeframe check.) -/
theorem C2_amended (doc b v : Yaml)
    (htitle : (yamlGet doc "title").elim false Yaml.truthy = true)
    (hdet : yamlGet doc "detection" = some b)
    (hcond : listOfStrings (yamlGet b "condition") ≠ [])
    (htf : yamlGet b "timeframe" = some v) (hv : v.truthy = true) :
    parseRule doc = .error SpecError.aggregationNotSupported := by
  have hbmap : ∃ bkvs, b = .map bkvs := by
    cases b with
    | map bkvs => exact ⟨bkvs, rfl⟩
    | _ => simp [yamlGet] at htf
  have hdocmap : ∃ kvs, doc = .map kvs := by
    cases doc with
    | map kvs => exact ⟨kvs, rfl⟩
    | _ => simp [yamlGet] at hdet
  rcases hbmap with ⟨bkvs, rfl⟩
  rcases hdocmap with ⟨kvs, rfl⟩
  have hce : (listOfStrings (yamlGet (.map bkvs) "condition")).isEmpty = false := by
    cases hc : listOfStrings (yamlGet (.map bkvs) "condition") with
    | nil => exact absurd hc hcond
    | cons a l => rfl
  have htfe : (yamlGet (Yaml.map bkvs) "timeframe").elim false Yaml.truthy = true := by
    rw [htf]; exact hv
  have hdp : parseDetection (some (.map bkvs)) = .error SpecError.aggregationNotSupported := by
    simp only [parseDetection, hce, htfe, Bool.false_eq_true, if_false, if_true]
    rfl
  simp only [parseRule, htitle, Bool.not_true, Bool.false_eq_true, if_false, hdet, hdp]
  rfl

/-- Witness for `C2_amended` at a concrete document. -/
theorem C2_amended_witness :
    ((yamlGet (.map [("title", .str "t"), ("detection", .map [("condition", .str "a"),
        ("timeframe", .str "5m")])]) "title").elim false Yaml.truthy = true) ∧
    parseRule (.map [("title", .str "t"), ("detection", .map [("condition", .str "a"),
        ("timeframe", .str "5m")])]) = .error SpecError.aggregationNotSupported :=
  ⟨rfl, C2_amended _ (.map [("condition", .str "a"), ("timeframe", .str "5m")])
    (.str "5m") rfl rfl (by simp [listOfStrings, yamlGet]) rfl rfl⟩

/-- C3 (counterexample): the claim says a field lookup that finds nothing
makes `exprMatches` return `false` for *every* pattern list and modifier
set.  But the missing field resolves to the empty string, which is then run
through the compiled matcher, and the pattern `*` matches the empty
string. -/
theorem C3_counterexample :
    SearchAtom.exprMatches ⟨some "f", [], ["*"]⟩ ⟨"", []⟩ ⟨[]⟩ = .ok true := rfl

/-- C3 (amended): when an atom has a named non-empty field and no field key
of the entry equals it case-insensitively, `exprMatches` behaves exactly as
if the entry had no fields at all: the lookup yields the empty string and
the atom matches the empty string (so it returns `false` only when the
compiled matcher rejects the empty string). -/
theorem C3_amended (a : SearchAtom) (f : String) (entry : LogEntry) (opts : MatchOptions)
    (hf : a.field = some f) (hne : f ≠ "")
    (hmiss : ∀ kv ∈ entry.fields, lowerStr kv.1 ≠ lowerStr f) :
    a.exprMatches entry opts = a.exprMatches ⟨entry.message, []⟩ opts := by
  have hff : fieldFalsy a.field = false := by
    simp [fieldFalsy, hf, hne]
  have hfind : entry.fields.find?
      (fun kv => lowerStr kv.1 = lowerStr (a.field.getD "")) = Option.none := by
    rw [List.find?_eq_none]
    intro kv hkv
    simp only [hf, Option.getD_some, decide_eq_true_eq]
    exact hmiss kv hkv
  have hc : fieldContent a entry = fieldContent a ⟨entry.message, []⟩ := by
    unfold fieldContent
    rw [hff]
    simp only [Bool.false_eq_true, if_false, hfind]
    rfl
  unfold SearchAtom.exprMatches
  rw [hc]

/-- Witness for `C3_amended` at a concrete atom and entry. -/
theorem C3_amended_witness :
    (∀ kv ∈ ([("g", "v")] : List (String × String)), lowerStr kv.1 ≠ lowerStr "f") ∧
    SearchAtom.exprMatches ⟨some "f", [], ["x"]⟩ ⟨"m", [("g", "v")]⟩ ⟨[]⟩
      = SearchAtom.exprMatches ⟨some "f", [], ["x"]⟩ ⟨"m", []⟩ ⟨[]⟩ :=
  ⟨by decide, C3_amended ⟨some "f", [], ["x"]⟩ "f" ⟨"m", [("g", "v")]⟩ ⟨[]⟩
    rfl (by decide) (by decide)⟩

/-- C4 (counterexample): the claim says every scalar — string, number or
boolean — resolves to a fieldless atom rather than failing.  But only
strings do: a top-level number (or a number inside a list) is rejected
with the unsupported-value error, so the detection block fails to parse. -/
theorem C4_counterexample :
    parseIdentValue "a" (.num 1234)
      = .error (.sigma "search identifier \"a\": unsupported value") ∧
    parseIdentValue "a" (.seq [.str "x", .num 5])
      = .error (.sigma "search identifier \"a\": unsupported list value") ∧
    exceptOk (parseDetection (some (.map [("a", .num 1234), ("condition", .str "a")])))
      = false :=
  ⟨rfl, rfl, rfl⟩

/-- C4 (amended): in the Detection Builder, a *string* scalar resolves to a
single-pattern fieldless `SearchAtom`, and a list of *strings* resolves to
one fieldless `SearchAtom` whose patterns are the list's elements; number
and boolean values — top-level or inside a list — are rejected with the
unsupported-value error. -/
theorem C4_amended (id : String) (s : String) (ss : List String) (n : Int) (b : Bool) :
    parseIdentValue id (.str s) = .ok (.atom ⟨Option.none, [], [s]⟩) ∧
    parseIdentValue id (.seq (ss.map Yaml.str)) = .ok (.atom ⟨Option.none, [], ss⟩) ∧
    parseIdentValue id (.num n)
      = .error (.sigma ("search identifier \"" ++ id ++ "\": unsupported value")) ∧
    parseIdentValue id (.bool b)
      = .error (.sigma ("search identifier \"" ++ id ++ "\": unsupported value")) ∧
    parseIdentValue id (.seq [.str s, .num n])
      = .error (.sigma ("search identifier \"" ++ id ++ "\": unsupported list value")) := by
  refine ⟨rfl, ?_, rfl, rfl, rfl⟩
  match ss with
  | [] => rfl
  | [t] => rfl
  | t1 :: t2 :: rest =>
      have hmap := mapM_parseListElem id (t1 :: t2 :: rest)
      simp only [List.map_cons] at hmap
      simp only [parseIdentValue, List.map_cons, hmap, except_bind_ok]
      simp [isPlainAtom, fieldFalsy, exprAtomPatterns, List.forall_mem_map,
        List.map_map, Function.comp_def, flatten_singletons]
      rfl

/-- C10: the condition tokens `1` and `all` are reserved in unary position:
when the token after them is not `of`, `unary` fails with the expected-of
error for every identifier table, so an identifier literally named `all`
(or `1`) can never be referenced by bare lookup — the condition `all` fails
even when the table contains the identifier `all`. -/
theorem C10_reserved_tokens (fuel : Nat) (tbl : List (String × Expr)) (x : Expr)
    (s s2 : List Char) (tok : String)
    (htok : tok = "1" ∨ tok = "all")
    (hlex : condLex s = (tok, s2))
    (hne : (condLex s2).1 ≠ "of") :
    pUnary (fuel + 1) tbl s
      = .error (.sigma ("expected \"of\" after \"" ++ tok ++ "\"")) ∧
    parseCondition "all" [("all", x)]
      = .error (.sigma "expected \"of\" after \"all\"") := by
  constructor
  · have hof : ((condLex s2).1 = "of") = False := by
      simp [hne]
    rcases htok with h | h <;> subst h <;>
      simp [pUnary, hlex, hof]
  · rfl

/-- Witness for `C10_reserved_tokens` at a concrete state. -/
theorem C10_reserved_tokens_witness :
    condLex "all".toList = ("all", []) ∧ (condLex ([] : List Char)).1 ≠ "of" ∧
    pUnary 1 [("all", Expr.atom ⟨Option.none, [], ["x"]⟩)] "all".toList
      = .error (.sigma "expected \"of\" after \"all\"") :=
  ⟨rfl, by decide,
    (C10_reserved_tokens 0 [("all", Expr.atom ⟨Option.none, [], ["x"]⟩)]
      (Expr.atom ⟨Option.none, [], ["x"]⟩) "all".toList [] "all"
      (Or.inr rfl) rfl (by decide)).1⟩

theorem processPattern_plain (p : String) :
    processPattern [] Option.none p = .ok (plainFrag p) := rfl

theorem eval_plain_fieldless_atom (ps : List String) (entry : LogEntry) (opts : MatchOptions) :
    Expr.eval (.atom ⟨Option.none, [], ps⟩) entry opts
      = .ok (ps.any (fun p => (plainFrag p).matchList (lowerL entry.message.toList))) := by
  cases ps with
  | nil => rfl
  | cons p rest =>
      have hval : (⟨Option.none, [], p :: rest⟩ : SearchAtom).validate = Option.none := rfl
      have hmap : exceptMapM (processPattern [] Option.none) (p :: rest)
          = .ok ((p :: rest).map plainFrag) :=
        exceptMapM_ok _ _ _ (fun x _ => processPattern_plain x)
      simp only [Expr.eval, SearchAtom.exprMatches, hval, Option.isSome_none,
        Bool.false_eq_true, if_false, compileAtom, expandPatterns, fieldContent]
      simp only [show (([] : List String).contains "cidr") = false from rfl,
        show (([] : List String).contains "expand") = false from rfl,
        show (([] : List String).contains "all") = false from rfl,
        Bool.false_eq_true, if_false, hmap, except_bind_ok]
      simp only [show ((p :: rest).isEmpty) = false from rfl, Bool.false_eq_true, if_false]
      show Except.ok (((p :: rest).map plainFrag).any
        (fun r => r.matchList (lowerL entry.message.toList))) = _
      have hany : ∀ (l : List String) (w : List Char),
          (l.map plainFrag).any (fun r => r.matchList w)
            = l.any (fun q => (plainFrag q).matchList w) := by
        intro l w
        induction l with
        | nil => rfl
        | cons q qs ih => simp [List.any_cons, ih]
      rw [hany]

theorem evalOr_plain_atoms (pss : List (List String)) (entry : LogEntry) (opts : MatchOptions) :
    evalOr (pss.map (fun ps => Expr.atom ⟨Option.none, [], ps⟩)) entry opts
      = .ok (pss.any (fun ps =>
          ps.any (fun p => (plainFrag p).matchList (lowerL entry.message.toList)))) := by
  induction pss with
  | nil => rfl
  | cons ps rest ih =>
      simp only [List.map_cons, evalOr, eval_plain_fieldless_atom, except_bind_ok]
      cases h : ps.any (fun p => (plainFrag p).matchList (lowerL entry.message.toList)) with
      | true => simp only [List.any_cons, h, Bool.true_or, if_true]; rfl
      | false => simp only [List.any_cons, h, Bool.false_or, if_false, Bool.false_eq_true, ih]

/-- C9: the keywords-collapse optimization is semantically transparent — for
every list of unmodified fieldless `SearchAtom`s, the single merged atom
carrying the concatenated patterns evaluates to the same result on every
log entry (and placeholder table) as the `Or` expression over the
individual atoms. -/
theorem C9_keywords_collapse (pss : List (List String)) (entry : LogEntry) (opts : MatchOptions) :
    Expr.eval (.atom ⟨Option.none, [], pss.flatten⟩) entry opts
      = Expr.eval (.or (pss.map (fun ps => Expr.atom ⟨Option.none, [], ps⟩))) entry opts := by
  rw [eval_plain_fieldless_atom]
  show _ = evalOr (pss.map (fun ps => Expr.atom ⟨Option.none, [], ps⟩)) entry opts
  rw [evalOr_plain_atoms]
  congr 1
  induction pss with
  | nil => rfl
  | cons ps rest ih => simp [List.any_append, ih]

theorem padBoth_iff (r : RE) (s : List Char) :
    Matches (.seq (.seq (.star .dot) r) (.star .dot)) s
      ↔ ∃ u v w, s = u ++ v ++ w ∧ Matches r v := by
  rw [padRight_iff]
  constructor
  · rintro ⟨u', w, rfl, h⟩
    rcases (padLeft_iff r u').mp h with ⟨u, v, rfl, hv⟩
    exact ⟨u, v, w, by simp, hv⟩
  · rintro ⟨u, v, w, rfl, hv⟩
    exact ⟨u ++ v, w, by simp, (padLeft_iff r (u ++ v)).mpr ⟨u, v, rfl, hv⟩⟩

/-- C7 (counterexample): the claim says every compiled non-CIDR pattern
matched against a named field is anchored at both ends.  But the `re` (and
`base64offset`) branches of `_compile` return their fragment before the
anchoring code runs, so an `re` pattern against a named field has substring
semantics: pattern `b` matches field value `abc`, where an anchored `^b$`
would not. -/
theorem C7_counterexample :
    SearchAtom.exprMatches ⟨some "f", ["re"], ["b"]⟩ ⟨"", [("f", "abc")]⟩ ⟨[]⟩
      = .ok true := rfl

/-- C7 (amended): for non-CIDR patterns compiled through the glob pipeline
(not `re`/`base64offset`, whose fragments are used verbatim and never
anchored): a pattern matched against a named field requires a full-value
match; `contains` gives substring semantics, `startswith` anchors only the
start (prefix semantics), `endswith` anchors only the end (suffix
semantics); and a fieldless atom matched against the free-text message
always has substring semantics. -/
theorem C7_amended (p s : String) :
    (SearchAtom.exprMatches ⟨some "f", [], [p]⟩ ⟨"", [("f", s)]⟩ ⟨[]⟩ = .ok true
      ↔ Matches (globRE (lowerL p.toList)) (lowerL s.toList)) ∧
    (SearchAtom.exprMatches ⟨some "f", ["contains"], [p]⟩ ⟨"", [("f", s)]⟩ ⟨[]⟩ = .ok true
      ↔ ∃ u v w, lowerL s.toList = u ++ v ++ w ∧ Matches (globRE (lowerL p.toList)) v) ∧
    (SearchAtom.exprMatches ⟨some "f", ["startswith"], [p]⟩ ⟨"", [("f", s)]⟩ ⟨[]⟩ = .ok true
      ↔ ∃ u v, lowerL s.toList = u ++ v ∧ Matches (globRE (lowerL p.toList)) u) ∧
    (SearchAtom.exprMatches ⟨some "f", ["endswith"], [p]⟩ ⟨"", [("f", s)]⟩ ⟨[]⟩ = .ok true
      ↔ ∃ u v, lowerL s.toList = u ++ v ∧ Matches (globRE (lowerL p.toList)) v) ∧
    (SearchAtom.exprMatches ⟨Option.none, [], [p]⟩ ⟨s, []⟩ ⟨[]⟩ = .ok true
      ↔ ∃ u v w, lowerL s.toList = u ++ v ++ w ∧ Matches (globRE (lowerL p.toList)) v) := by
  refine ⟨?_, ?_, ?_, ?_, ?_⟩
  · have h : SearchAtom.exprMatches ⟨some "f", [], [p]⟩ ⟨"", [("f", s)]⟩ ⟨[]⟩
        = .ok ((globRE (lowerL p.toList)).matchList (lowerL s.toList) || false) := rfl
    rw [h]
    simp only [Bool.or_false, Except.ok.injEq]
    exact matchList_iff_Matches _ _
  · have h : SearchAtom.exprMatches ⟨some "f", ["contains"], [p]⟩ ⟨"", [("f", s)]⟩ ⟨[]⟩
        = .ok ((RE.seq (.seq (.star .dot) (globRE (lowerL p.toList))) (.star .dot)).matchList
            (lowerL s.toList) || false) := rfl
    rw [h]
    simp only [Bool.or_false, Except.ok.injEq]
    rw [matchList_iff_Matches, padBoth_iff]
  · have h : SearchAtom.exprMatches ⟨some "f", ["startswith"], [p]⟩ ⟨"", [("f", s)]⟩ ⟨[]⟩
        = .ok ((RE.seq (globRE (lowerL p.toList)) (.star .dot)).matchList
            (lowerL s.toList) || false) := rfl
    rw [h]
    simp only [Bool.or_false, Except.ok.injEq]
    rw [matchList_iff_Matches, padRight_iff]
  · have h : SearchAtom.exprMatches ⟨some "f", ["endswith"], [p]⟩ ⟨"", [("f", s)]⟩ ⟨[]⟩
        = .ok ((RE.seq (.star .dot) (globRE (lowerL p.toList))).matchList
            (lowerL s.toList) || false) := rfl
    rw [h]
    simp only [Bool.or_false, Except.ok.injEq]
    rw [matchList_iff_Matches, padLeft_iff]
  · have h : SearchAtom.exprMatches ⟨Option.none, [], [p]⟩ ⟨s, []⟩ ⟨[]⟩
        = .ok ((RE.seq (.seq (.star .dot) (globRE (lowerL p.toList))) (.star .dot)).matchList
            (lowerL s.toList) || false) := rfl
    rw [h]
    simp only [Bool.or_false, Except.ok.injEq]
    rw [matchList_iff_Matches, padBoth_iff]

theorem parseIPv4_some_parseIPv6_none {s : String} {a : IPv4}
    (h : parseIPv4 s = some a) : parseIPv6 s = Option.none := by
  cases hc : s.toList.contains ':' with
  | true =>
      exfalso
      simp only [parseIPv4, hc, reduceIte] at h
      cases h
  | false =>
      simp only [parseIPv6, hc, Bool.not_false, reduceIte]

/-- C8: under the `cidr` modifier a candidate matches the pattern list iff
it parses as an IPv4 or IPv6 address and is contained in at least one
same-address-family network from the list; a candidate parsing in neither
family, or a list with no network of the candidate's family, is a
non-match and never an error.  Concretely: `10.1.2.3` matches
`["10.0.0.0/8"]`, `11.1.2.3` does not, and an IPv6 candidate never matches
an IPv4-only list.  (The `ip-address` collaborator is spec-modelled.) -/
theorem C8_cidr_matching (pats : List String) (s : String) :
    (Compiled.test (.cidr (pats.filterMap parseNet)) s = true
      ↔ ((∃ a, parseIPv4 s = some a ∧
            ∃ m, IPNet.v4 m ∈ pats.filterMap parseNet ∧ inSubnet4 a m = true) ∨
          (∃ a, parseIPv6 s = some a ∧
            ∃ m, IPNet.v6 m ∈ pats.filterMap parseNet ∧ inSubnet6 a m = true))) ∧
    (∀ (f : Option String) (ps qs : List String),
      compileAtom ⟨f, ["cidr"], ps⟩ qs = .ok (.cidr (qs.filterMap parseNet))) ∧
    SearchAtom.exprMatches ⟨some "ip", ["cidr"], ["10.0.0.0/8"]⟩ ⟨"", [("ip", "10.1.2.3")]⟩ ⟨[]⟩
      = .ok true ∧
    SearchAtom.exprMatches ⟨some "ip", ["cidr"], ["10.0.0.0/8"]⟩ ⟨"", [("ip", "11.1.2.3")]⟩ ⟨[]⟩
      = .ok false ∧
    SearchAtom.exprMatches ⟨some "ip", ["cidr"], ["10.0.0.0/8"]⟩ ⟨"", [("ip", "::1")]⟩ ⟨[]⟩
      = .ok false := by
  refine ⟨?_, fun f ps qs => rfl, rfl, rfl, rfl⟩
  rcases h4 : parseIPv4 s with _ | a
  · rcases h6 : parseIPv6 s with _ | a
    · simp [Compiled.test, h4, h6]
    · simp only [Compiled.test, h4, h6, List.any_eq_true]
      constructor
      · rintro ⟨n, hn, hpred⟩
        cases n with
        | v4 m => simp at hpred
        | v6 m => exact Or.inr ⟨a, rfl, m, hn, hpred⟩
      · rintro (⟨a', ha', _⟩ | ⟨a', ha', m, hm, hsub⟩)
        · cases ha'
        · obtain rfl : a' = a := by injection ha' with h'; exact h'.symm
          exact ⟨.v6 m, hm, hsub⟩
  · simp only [Compiled.test, h4, List.any_eq_true]
    have h6 := parseIPv4_some_parseIPv6_none h4
    constructor
    · rintro ⟨n, hn, hpred⟩
      cases n with
      | v4 m => exact Or.inl ⟨a, rfl, m, hn, hpred⟩
      | v6 m => simp at hpred
    · rintro (⟨a', ha', m, hm, hsub⟩ | ⟨a', ha', _⟩)
      · obtain rfl : a' = a := by injection ha' with h'; exact h'.symm
        exact ⟨.v4 m, hm, hsub⟩
      · rw [h6] at ha'
        cases ha'

theorem evalOr_append (xs ys : List Expr) (e : LogEntry) (o : MatchOptions) :
    evalOr (xs ++ ys) e o
      = (do
          let r ← evalOr xs e o
          if r then pure true else evalOr ys e o) := by
  induction xs with
  | nil => rfl
  | cons x rest ih =>
      simp only [List.cons_append, evalOr]
      rcases hx : x.eval e o with err | bb
      · rfl
      · cases bb with
        | true => simp [hx, except_bind_ok]
        | false => simp [hx, except_bind_ok, ih]

theorem evalAnd_append (xs ys : List Expr) (e : LogEntry) (o : MatchOptions) :
    evalAnd (xs ++ ys) e o
      = (do
          let r ← evalAnd xs e o
          if r then evalAnd ys e o else pure false) := by
  induction xs with
  | nil => rfl
  | cons x rest ih =>
      simp only [List.cons_append, evalAnd]
      rcases hx : x.eval e o with err | bb
      · rfl
      · cases bb with
        | true => simp [hx, except_bind_ok, ih]
        | false => simp [hx, except_bind_ok]

/-- C6: over the identifier table with entries `A` and `B`, the expression
parsed from condition `1 of them` evaluates to the same result on every
log entry and placeholder table as the expression parsed from `A or B`,
and `all of them` evaluates as `A and B` — for arbitrary sub-expressions
bound to the two identifiers. -/
theorem C6_quantifier_laws (a b : Expr) (entry : LogEntry) (opts : MatchOptions) :
    ((parseCondition "1 of them" [("A", a), ("B", b)]).map (fun x => x.eval entry opts)
      = (parseCondition "A or B" [("A", a), ("B", b)]).map (fun x => x.eval entry opts)) ∧
    ((parseCondition "all of them" [("A", a), ("B", b)]).map (fun x => x.eval entry opts)
      = (parseCondition "A and B" [("A", a), ("B", b)]).map (fun x => x.eval entry opts)) := by
  have h1 : parseCondition "1 of them" [("A", a), ("B", b)] = .ok (.or [a, b]) := rfl
  have h2 : parseCondition "A or B" [("A", a), ("B", b)]
      = .ok (match a with | .or xs => .or (xs ++ [b]) | _ => .or [a, b]) := by
    cases a <;> rfl
  have h3 : parseCondition "all of them" [("A", a), ("B", b)] = .ok (.and [a, b]) := rfl
  have h4 : parseCondition "A and B" [("A", a), ("B", b)]
      = .ok (match a with | .and xs => .and (xs ++ [b]) | _ => .and [a, b]) := by
    cases a <;> rfl
  constructor
  · rw [h1, h2]
    cases a <;> (simp only [Except.map]; try rfl)
    rename_i xs
    -- a = .or xs : eval (.or [.or xs, b]) = eval (.or (xs ++ [b]))
    show Except.ok (evalOr [Expr.or xs, b] entry opts)
      = Except.ok (evalOr (xs ++ [b]) entry opts)
    rw [evalOr_append]
    simp only [evalOr, Expr.eval]
  · rw [h3, h4]
    cases a <;> (simp only [Except.map]; try rfl)
    rename_i xs
    show Except.ok (evalAnd [Expr.and xs, b] entry opts)
      = Except.ok (evalAnd (xs ++ [b]) entry opts)
    rw [evalAnd_append]
    simp only [evalAnd, Expr.eval]

theorem reToks_cons_dot (rest : List Char) :
    reToks ('.' :: rest) = (reToks rest >>= fun ts => pure (ReTok.dot :: ts)) := by
  conv_lhs => unfold reToks
  rw [if_neg (by decide), if_pos rfl]

theorem reToks_cons_star (rest : List Char) :
    reToks ('*' :: rest) = (reToks rest >>= fun ts => pure (ReTok.star :: ts)) := by
  conv_lhs => unfold reToks
  rw [if_neg (by decide), if_neg (by decide), if_pos rfl]

theorem reToks_cons_safe (c : Char) (rest : List Char)
    (hstar : c ≠ '*') (hsafe : quantSafeChar c = true) :
    reToks (c :: rest) = (reToks rest >>= fun ts => pure (ReTok.lit c :: ts)) := by
  have hmem : c ∉ ['.', '^', '$', '+', '?', '(', ')', '[', ']',
      '\x7b', '\x7d', '|', '\\'] := by
    simpa [quantSafeChar] using hsafe
  simp only [List.mem_cons, not_or, List.not_mem_nil, not_false_iff, and_true] at hmem
  obtain ⟨hdot, hcaret, hdollar, hplus, hopt, hlp, hrp, hlb, hrb,
    hlbr, hrbr, hbar, hbs⟩ := hmem
  conv_lhs => unfold reToks
  rw [if_neg hbs, if_neg hdot, if_neg hstar, if_neg hplus, if_neg hopt, if_neg hbar,
    if_neg (by simp [hlp, hrp, hlb, hrb, hlbr, hrbr, hcaret, hdollar])]

theorem quantSubst_cons (c : Char) (rest : List Char) (h : c ≠ '*') :
    quantSubst (c :: rest) = c :: quantSubst rest := by
  conv_lhs => unfold quantSubst
  rw [if_neg h]

theorem reToks_quantSubst (p : List Char)
    (hs : p.all (fun c => c = '*' || quantSafeChar c) = true) :
    reToks (quantSubst p) = .ok (quantToks p) := by
  induction p with
  | nil => rfl
  | cons c rest ih =>
      rw [List.all_cons, Bool.and_eq_true] at hs
      obtain ⟨hc, hrest⟩ := hs
      by_cases h : c = '*'
      · subst h
        rw [show quantSubst ('*' :: rest) = '.' :: '*' :: quantSubst rest from rfl,
          reToks_cons_dot, reToks_cons_star, ih hrest]
        rw [show quantToks ('*' :: rest) = ReTok.dot :: ReTok.star :: quantToks rest
          from by simp [quantToks]]
        rfl
      · have hsafe : quantSafeChar c = true := by
          rcases Bool.or_eq_true_iff.mp hc with h' | h'
          · exact absurd (of_decide_eq_true h') h
          · exact h'
        rw [quantSubst_cons c _ h, reToks_cons_safe c _ h hsafe, ih hrest]
        rw [show quantToks (c :: rest) = ReTok.lit c :: quantToks rest
          from by simp [quantToks, if_neg h]]
        rfl

theorem quantToks_no_bar (p : List Char) : ∀ t ∈ quantToks p, t ≠ .bar := by
  induction p with
  | nil => intro t ht; cases ht
  | cons c rest ih =>
      intro t ht
      simp only [quantToks, List.map_cons, List.flatten_cons, List.mem_append] at ht
      rcases ht with ht | ht
      · by_cases h : c = '*'
        · rw [if_pos h] at ht
          simp only [List.mem_cons, List.not_mem_nil, or_false] at ht
          rcases ht with rfl | rfl
          · intro hcon; cases hcon
          · intro hcon; cases hcon
        · rw [if_neg h] at ht
          simp only [List.mem_cons, List.not_mem_nil, or_false] at ht
          subst ht
          intro hcon; cases hcon
      · exact ih t ht

theorem splitBarAux_no_bar (toks : List ReTok) (acc : List ReTok)
    (h : ∀ t ∈ toks, t ≠ .bar) :
    splitBarAux toks acc = [acc.reverse ++ toks] := by
  induction toks generalizing acc with
  | nil => simp [splitBarAux]
  | cons t rest ih =>
      have ht := h t (List.mem_cons_self t rest)
      have hrest : ∀ u ∈ rest, u ≠ ReTok.bar :=
        fun u hu => h u (List.mem_cons_of_mem t hu)
      cases t with
      | bar => exact absurd rfl ht
      | lit c =>
          rw [show splitBarAux (ReTok.lit c :: rest) acc
              = splitBarAux rest (ReTok.lit c :: acc) from rfl, ih _ hrest]
          simp
      | dot =>
          rw [show splitBarAux (ReTok.dot :: rest) acc
              = splitBarAux rest (ReTok.dot :: acc) from rfl, ih _ hrest]
          simp
      | star =>
          rw [show splitBarAux (ReTok.star :: rest) acc
              = splitBarAux rest (ReTok.star :: acc) from rfl, ih _ hrest]
          simp
      | plus =>
          rw [show splitBarAux (ReTok.plus :: rest) acc
              = splitBarAux rest (ReTok.plus :: acc) from rfl, ih _ hrest]
          simp
      | opt =>
          rw [show splitBarAux (ReTok.opt :: rest) acc
              = splitBarAux rest (ReTok.opt :: acc) from rfl, ih _ hrest]
          simp

theorem quantToks_head (p : List Char) :
    ∀ t, (quantToks p).head? = some t → t = .dot ∨ ∃ d, t = .lit d := by
  cases p with
  | nil => intro t ht; cases ht
  | cons c rest =>
      intro t ht
      by_cases h : c = '*'
      · simp only [quantToks, List.map_cons, List.flatten_cons, if_pos h,
          List.cons_append, List.head?_cons] at ht
        injection ht with h'
        exact Or.inl h'.symm
      · simp only [quantToks, List.map_cons, List.flatten_cons, if_neg h,
          List.cons_append, List.head?_cons] at ht
        injection ht with h'
        exact Or.inr ⟨c, h'.symm⟩

theorem seqREs_lit_cons (c : Char) (rest : List ReTok)
    (h : ∀ t, rest.head? = some t → t = .dot ∨ ∃ d, t = .lit d) :
    seqREs (.lit c :: rest) = (seqREs rest >>= fun rs => pure (RE.lit c :: rs)) := by
  cases rest with
  | nil => rfl
  | cons t rest' =>
      rcases h t rfl with h' | ⟨d, h'⟩
      · subst h'
        rfl
      · subst h'
        rfl

theorem seqREs_quantToks (p : List Char)
    (hs : p.all (fun c => c = '*' || quantSafeChar c) = true) :
    seqREs (quantToks p) = .ok (quantElems p) := by
  induction p with
  | nil => rfl
  | cons c rest ih =>
      rw [List.all_cons, Bool.and_eq_true] at hs
      obtain ⟨hc, hrest⟩ := hs
      by_cases h : c = '*'
      · subst h
        rw [show quantToks ('*' :: rest) = .dot :: .star :: quantToks rest
            from by simp [quantToks]]
        rw [show seqREs (.dot :: .star :: quantToks rest)
            = (seqREs (quantToks rest) >>= fun rs => pure (RE.star .dot :: rs)) from rfl]
        rw [ih hrest]
        rw [show quantElems ('*' :: rest) = RE.star .dot :: quantElems rest
            from by simp [quantElems]]
        rfl
      · rw [show quantToks (c :: rest) = .lit c :: quantToks rest
            from by simp [quantToks, if_neg h]]
        rw [seqREs_lit_cons c _ (quantToks_head rest), ih hrest]
        rw [show quantElems (c :: rest) = RE.lit c :: quantElems rest
            from by simp [quantElems, if_neg h]]
        rfl

theorem jsRegexRE_quantSubst (p : List Char)
    (hs : p.all (fun c => c = '*' || quantSafeChar c) = true) :
    jsRegexRE (quantSubst p) = .ok (quantGlobRE p) := by
  unfold jsRegexRE
  rw [reToks_quantSubst p hs, except_bind_ok,
    splitBarAux_no_bar _ _ (quantToks_no_bar p)]
  simp only [List.reverse_nil, List.nil_append, exceptMapM,
    seqREs_quantToks p hs, except_bind_ok]
  rfl

/-- C5 (counterexample): the claim says every non-`*` character of a
quantifier pattern is matched literally.  But the pattern is spliced into a
regular expression with only `*` replaced (`pattern.replace(/\*／g, '.*')`,
no escaping), so `.` keeps its regex meaning: `1 of a.c` resolves the
identifier `abc`, which contains no literal dot, instead of failing with
zero matches. -/
theorem C5_counterexample :
    quantResolve "1" "a.c" [("abc", .atom ⟨Option.none, [], ["x"]⟩)]
      = .ok (.atom ⟨Option.none, [], ["x"]⟩) ∧
    parseCondition "1 of a.c" [("abc", .atom ⟨Option.none, [], ["x"]⟩)]
      = .ok (.atom ⟨Option.none, [], ["x"]⟩) := ⟨rfl, rfl⟩

/-- C5 (amended): quantifier resolution for `1 of <pattern>` /
`all of <pattern>`: the literal `them` selects all known identifiers;
otherwise the pattern is applied case-sensitively as a regular expression
with each `*` replaced by `.*` (other regex metacharacters keep their regex
meaning) — for patterns built from `*` and regex-literal characters this is
exactly glob matching (`quantGlobRE`).  Zero matching identifiers is an
error, exactly one match yields that identifier's expression with no
wrapping node, `1 of` wraps multiple matches in an `Or`, and `all of`
wraps them in an `And`. -/
theorem C5_amended (tbl : List (String × Expr)) (p t : String)
    (_ht : t = "1" ∨ t = "all")
    (hsafe : p.toList.all (fun c => c = '*' || quantSafeChar c) = true)
    (hnotthem : p ≠ "them") :
    (quantResolve t p tbl
      = match (tbl.filter (fun nx =>
            (quantGlobRE p.toList).matchList nx.1.toList)).map Prod.snd with
        | [] => .error (.sigma (t ++ " of " ++ p ++ " did not match any identifiers"))
        | [e] => .ok e
        | es => if t = "1" then .ok (.or es) else .ok (.and es)) ∧
    (quantResolve t "them" tbl
      = match tbl.map Prod.snd with
        | [] => .error (.sigma (t ++ " of " ++ "them" ++ " did not match any identifiers"))
        | [e] => .ok e
        | es => if t = "1" then .ok (.or es) else .ok (.and es)) := by
  constructor
  · have hq : quantResolve t p tbl
        = quantFinish t p ((tbl.filter (fun nx =>
            (quantGlobRE p.toList).matchList nx.1.toList)).map Prod.snd) := by
      unfold quantResolve
      rw [if_neg hnotthem, jsRegexRE_quantSubst p.toList hsafe]
    rw [hq]
    cases hl : (tbl.filter (fun nx =>
        (quantGlobRE p.toList).matchList nx.1.toList)).map Prod.snd with
    | nil => rfl
    | cons x xs =>
        cases xs with
        | nil => rfl
        | cons y ys => rfl
  · have hq : quantResolve t "them" tbl = quantFinish t "them" (tbl.map Prod.snd) := rfl
    rw [hq]
    cases hl : tbl.map Prod.snd with
    | nil => rfl
    | cons x xs =>
        cases xs with
        | nil => rfl
        | cons y ys => rfl

theorem C5_amended_witness :
    ("sel_*".toList.all (fun c => c = '*' || quantSafeChar c) = true) ∧
    ("sel_*" ≠ "them") ∧
    quantResolve "1" "sel_*"
        [("other", .atom ⟨Option.none, [], ["z"]⟩),
         ("sel_a", .atom ⟨Option.none, [], ["x"]⟩),
         ("sel_b", .atom ⟨Option.none, [], ["y"]⟩)]
      = .ok (.or [.atom ⟨Option.none, [], ["x"]⟩, .atom ⟨Option.none, [], ["y"]⟩]) := by
  refine ⟨by decide, by decide, ?_⟩
  have h := (C5_amended
    [("other", .atom ⟨Option.none, [], ["z"]⟩),
     ("sel_a", .atom ⟨Option.none, [], ["x"]⟩),
     ("sel_b", .atom ⟨Option.none, [], ["y"]⟩)]
    "sel_*" "1" (Or.inl rfl) (by decide) (by decide)).1
  rw [h]
  rfl

end SigmaTS
